import Mathlib

/-!
Verification of the blockfish placement engine core.

This file gives a shallow embedding of the placement finder (`place.rs`)
and of the search state / node layer (`ai/node.rs`), and proves the
specified properties about them.

The shape table, the matrix primitives and the evaluator (`shape.rs`,
the `BasicMatrix` module and `score.rs`) are not part of the sources
under verification; where their behaviour matters they are modelled
from the specification, as noted on each definition.
-/

namespace Blockfish

/-- One of the four rotation states of a piece (cyclic under CW/CCW). -/
inductive Orientation
  | R0
  | R1
  | R2
  | R3
deriving DecidableEq, Repr, Fintype

/-- Clockwise rotation of an orientation. -/
def Orientation.cw : Orientation → Orientation
  | Orientation.R0 => Orientation.R1
  | Orientation.R1 => Orientation.R2
  | Orientation.R2 => Orientation.R3
  | Orientation.R3 => Orientation.R0

/-- Counterclockwise rotation of an orientation. -/
def Orientation.ccw : Orientation → Orientation
  | Orientation.R0 => Orientation.R3
  | Orientation.R1 => Orientation.R0
  | Orientation.R2 => Orientation.R1
  | Orientation.R3 => Orientation.R2

/-- All four orientations, in the order `Orientation::iter_all` yields them. -/
def Orientation.iter_all : List Orientation :=
  [Orientation.R0, Orientation.R1, Orientation.R2, Orientation.R3]

/-- The four piece inputs handled by the placement finder. -/
inductive Input
  | Left
  | Right
  | CW
  | CCW
deriving DecidableEq, Repr

/-- A color is a single-character piece identifier. -/
abbrev Color := Char

/-- A transform `(i, j, r)`: row offset, column offset, orientation. -/
abbrev Transform := Int × Int × Orientation

/-- Translate a transform one row downwards. -/
def down1 (tf : Transform) : Transform := (tf.1 - 1, tf.2.1, tf.2.2)

/-- Modelled from the spec: `BasicMatrix` (not under the verified sources)
is a finite-width, unbounded-height grid of booleans; row 0 is the bottom
row and rows grow as needed. -/
structure BasicMatrix where
  cols : Nat
  data : List (List Bool)
deriving DecidableEq, Repr

/-- Modelled from the spec: construct an empty matrix of width `w`. -/
def BasicMatrix.with_cols (w : Nat) : BasicMatrix := { cols := w, data := [] }

/-- Number of materialized rows of the matrix. -/
def BasicMatrix.rows (m : BasicMatrix) : Nat := m.data.length

/-- Modelled from the spec: cell query; out-of-range cells read as empty. -/
def BasicMatrix.get (m : BasicMatrix) (i j : Int) : Bool :=
  if i < 0 || j < 0 then false
  else (m.data.getD i.toNat []).getD j.toNat false

/-- Grow a row list with empty rows until it has at least `n` rows of width `w`. -/
def grow_rows (data : List (List Bool)) (n w : Nat) : List (List Bool) :=
  data ++ List.replicate (n - data.length) (List.replicate w false)

/-- Modelled from the spec: set one cell, growing the matrix as needed. -/
def BasicMatrix.set (m : BasicMatrix) (i j : Int) : BasicMatrix :=
  if i < 0 || j < 0 || decide ((m.cols : Int) ≤ j) then m
  else
    let data := grow_rows m.data (i.toNat + 1) m.cols
    { m with data := data.set i.toNat ((data.getD i.toNat []).set j.toNat true) }

/-- A row is full when every cell of it is occupied. -/
def full_row (row : List Bool) : Bool := row.all (fun b => b)

/-- Modelled from the spec: remove every fully-occupied row, compacting rows
above downward, and report whether any row was removed. -/
def BasicMatrix.sift_rows (m : BasicMatrix) : Bool × BasicMatrix :=
  (m.data.any full_row, { m with data := m.data.filter (fun r => !(full_row r)) })

/-- Modelled from the spec: a `Shape` (from `shape.rs`, not under the
verified sources) carries, per orientation, the occupied cell offsets, and
per rotation direction the ordered kick offsets to attempt. -/
structure Shape where
  color : Color
  cells : Orientation → List (Int × Int)
  kicks : Bool → Orientation → List (Int × Int)

/-- Modelled from the spec: `overlaps` is true when any occupied cell of the
shape at `tf` is out of bounds horizontally, below row 0, or coincides with
an occupied matrix cell. -/
def BasicMatrix.overlaps (m : BasicMatrix) (s : Shape) (tf : Transform) : Bool :=
  (s.cells tf.2.2).any fun d =>
    decide (tf.2.1 + d.2 < 0) || decide ((m.cols : Int) ≤ tf.2.1 + d.2) ||
      decide (tf.1 + d.1 < 0) || m.get (tf.1 + d.1) (tf.2.1 + d.2)

/-- Fuel-indexed downward translation: move down while one more step would
not overlap. -/
def drop_aux : Nat → BasicMatrix → Shape → Transform → Transform
  | 0, _, _, tf => tf
  | fuel + 1, m, s, tf =>
    if m.overlaps s (down1 tf) then tf else drop_aux fuel m s (down1 tf)

/-- Fuel sufficient for `drop_aux` to reach the resting row: once the first
cell of the shape is below row 0 the transform overlaps. -/
def drop_fuel (s : Shape) (tf : Transform) : Nat :=
  match (s.cells tf.2.2).head? with
  | none => 0
  | some d => (tf.1 + d.1 + 2).toNat

/-- Modelled from the spec: `sonic_drop` translates the shape downward until
one more step would overlap. -/
def Shape.sonic_drop (s : Shape) (m : BasicMatrix) (tf : Transform) : Transform :=
  drop_aux (drop_fuel s tf) m s tf

/-- Largest absolute cell offset of the shape, over all orientations. -/
def shape_bound (s : Shape) : Nat :=
  ((Orientation.iter_all.flatMap s.cells).map (fun d => max d.1.natAbs d.2.natAbs)).foldr max 0

/-- Modelled from the spec: all column offsets at which the shape in
orientation `r` lies fully inside `[0, w)`. -/
def Shape.valid_cols (s : Shape) (r : Orientation) (w : Nat) : List Int :=
  ((List.range (w + 2 * shape_bound s + 1)).map
      (fun n => (n : Int) - (shape_bound s : Int))).filter
    (fun j => (s.cells r).all fun d =>
      decide (0 ≤ j + d.2) && decide (j + d.2 < (w : Int)))

/-- Modelled from the spec: `peak` is the resting row obtained by dropping
from above every materialized row of the matrix. -/
def Shape.peak (s : Shape) (m : BasicMatrix) (j : Int) (r : Orientation) : Int :=
  (s.sonic_drop m ((m.rows : Int) + (shape_bound s : Int), j, r)).1

/-- Try a list of kick offsets in order; the first non-overlapping one wins. -/
def kick_try (m : BasicMatrix) (s : Shape) (tf : Transform) (r2 : Orientation)
    (ks : List (Int × Int)) : Option Transform :=
  (ks.find? (fun k => !(m.overlaps s (tf.1 + k.1, tf.2.1 + k.2, r2)))).map
    (fun k => (tf.1 + k.1, tf.2.1 + k.2, r2))

/-- Modelled from the spec: `try_input` applies one input. Translations
succeed iff the translated transform does not overlap; rotations attempt the
shape-and-direction-specific kick offsets in order. -/
def Shape.try_input (s : Shape) (m : BasicMatrix) (tf : Transform) (inp : Input) :
    Option Transform :=
  match inp with
  | Input.Left =>
    let tf2 : Transform := (tf.1, tf.2.1 - 1, tf.2.2)
    if m.overlaps s tf2 then none else some tf2
  | Input.Right =>
    let tf2 : Transform := (tf.1, tf.2.1 + 1, tf.2.2)
    if m.overlaps s tf2 then none else some tf2
  | Input.CW => kick_try m s tf tf.2.2.cw (s.kicks true tf.2.2)
  | Input.CCW => kick_try m s tf tf.2.2.ccw (s.kicks false tf.2.2)

/-- Modelled from the spec: the normalized shape transform is a canonical
key over the final occupied cells. -/
def Shape.normalize (s : Shape) (tf : Transform) : Finset (Int × Int) :=
  ((s.cells tf.2.2).map (fun d => (tf.1 + d.1, tf.2.1 + d.2))).toFinset

/-- Modelled from the spec: blit the shape's cells into the matrix at `tf`. -/
def Shape.blit_to (s : Shape) (m : BasicMatrix) (tf : Transform) : BasicMatrix :=
  (s.cells tf.2.2).foldl (fun acc d => acc.set (tf.1 + d.1) (tf.2.1 + d.2)) m

/-- A piece placement: stable index, shape, final transform, hold flag
(from `place.rs`). -/
structure Place where
  idx : Nat
  shape : Shape
  tf : Transform
  did_hold : Bool

/-- `Place::new`: the index starts out as `usize::MAX` and is assigned at
yield time. -/
def Place.new (s : Shape) (tf : Transform) (did_hold : Bool) : Place :=
  { idx := 18446744073709551615, shape := s, tf := tf, did_hold := did_hold }

/-- `Place::normal`: normalized view of this placement. -/
def Place.normal (pl : Place) : Finset (Int × Int) := pl.shape.normalize pl.tf

/-- `Place::input`: simulate one input and, if it succeeds, sonic-drop the
result to its resting position. -/
def Place.input (pl : Place) (m : BasicMatrix) (inp : Input) : Option Place :=
  (pl.shape.try_input m pl.tf inp).map fun tf0 =>
    { pl with tf := pl.shape.sonic_drop m tf0 }

/-- The shape table maps a color to its shape, when it has one. -/
abbrev ShapeTable := Color → Option Shape

/-- The placement finder state (from `place.rs`): owned matrix copy, DFS
stack of next placements (head of the list is the top of the stack), the
set of raw `(color, transform)` pairs seen, and the set of normalized
transforms already yielded. -/
structure PlaceFinder where
  matrix : BasicMatrix
  queue : List Place
  places_seen : Finset (Color × Transform)
  normals_seen : Finset (Finset (Int × Int))

/-- `PlaceFinder::new`. -/
def PlaceFinder.new : PlaceFinder :=
  { matrix := BasicMatrix.with_cols 0, queue := [], places_seen := ∅, normals_seen := ∅ }

/-- `PlaceFinder::reset_matrix`: copy the matrix in, clear the queue and
both seen-sets. -/
def PlaceFinder.reset_matrix (f : PlaceFinder) (m : BasicMatrix) : PlaceFinder :=
  { matrix := m, queue := [], places_seen := ∅, normals_seen := ∅ }

/-- The initial peak placements pushed by `push_shape`, in push order:
for every orientation and valid column, the shape dropped from above. -/
def peak_places (s : Shape) (hold : Bool) (m : BasicMatrix) : List Place :=
  Orientation.iter_all.flatMap fun r =>
    (s.valid_cols r m.cols).map fun j => Place.new s (s.peak m j r, j, r) hold

/-- `PlaceFinder::push_shape`: look the color up in the shape table; when it
has no shape, log and return with the finder unchanged; otherwise push the
peak placement for every orientation and valid column. -/
def PlaceFinder.push_shape (f : PlaceFinder) (tb : ShapeTable) (c : Color) (hold : Bool) :
    PlaceFinder :=
  match tb c with
  | none => f
  | some s => { f with queue := (peak_places s hold f.matrix).reverse ++ f.queue }

/-- `PlaceFinder::expand`: the placements pushed when expanding `pl`, in
push order `[Left, Right, CW, CCW]`. -/
def PlaceFinder.expand_list (f : PlaceFinder) (pl : Place) : List Place :=
  [Input.Left, Input.Right, Input.CW, Input.CCW].filterMap (pl.input f.matrix)

/-- The full iteration of the finder (`<PlaceFinder as Iterator>::next` in a
loop until it returns `None`), with fuel bounding the number of loop
iterations: pop a placement, assign its index, skip it if its raw transform
was already seen, otherwise expand it and yield it unless its normalized
transform was already yielded. -/
def run_finder : Nat → PlaceFinder → List Place
  | 0, _ => []
  | fuel + 1, f =>
    match f.queue with
    | [] => []
    | pl :: rest =>
      let pl1 := { pl with idx := f.normals_seen.card }
      let key := (pl.shape.color, pl.tf)
      let f1 : PlaceFinder := { f with queue := rest, places_seen := insert key f.places_seen }
      if key ∈ f.places_seen then run_finder fuel f1
      else
        let f2 : PlaceFinder := { f1 with queue := (f.expand_list pl1).reverse ++ rest }
        if pl1.normal ∈ f.normals_seen then
          run_finder fuel { f2 with normals_seen := insert pl1.normal f.normals_seen }
        else
          pl1 :: run_finder fuel { f2 with normals_seen := insert pl1.normal f.normals_seen }

/-- Prime a finder: reset with matrix `m`, then `push_shape` each listed
`(color, hold)` pair in order. -/
def prime_finder (tb : ShapeTable) (m : BasicMatrix) (l : List (Color × Bool)) : PlaceFinder :=
  l.foldl (fun f p => f.push_shape tb p.1 p.2) (PlaceFinder.new.reset_matrix m)

/-- Board state of a node (from `ai/node.rs`): matrix, queue in reverse
order (next piece at the end), hold flag, goal flag. -/
structure State where
  matrix : BasicMatrix
  queue_rev : List Color
  has_held : Bool
  is_goal : Bool
deriving DecidableEq, Repr

/-- `State::next`: `(next_piece, hold_alternative)`; positions from the top
of the reversed queue are swapped when `has_held` is set. -/
def State.next (s : State) : Option Color × Option Color :=
  let from_top := fun (i : Nat) =>
    if s.queue_rev.length < i then none else s.queue_rev.get? (s.queue_rev.length - i)
  if s.has_held then (from_top 2, from_top 1) else (from_top 1, from_top 2)

/-- `State::pop`: remove the queue element at position 1 from the end when
`has_held == hold`, else at position 2 from the end, then or `hold` into
`has_held`. Returns `none` where the source panics (queue too short). -/
def State.pop (s : State) (hold : Bool) : Option State :=
  let pos : Nat := if s.has_held == hold then 1 else 2
  if s.queue_rev.length < pos then none
  else some { s with
    queue_rev := s.queue_rev.eraseIdx (s.queue_rev.length - pos),
    has_held := s.has_held || hold }

/-- `State::place`: blit the placement into the matrix, sift full rows into
the goal flag, then pop the consumed piece. `none` models the panic of the
queue operation. -/
def State.place (s : State) (pl : Place) : Option State :=
  let m1 := pl.shape.blit_to s.matrix pl.tf
  let sift := m1.sift_rows
  State.pop { s with matrix := sift.2, is_goal := sift.1 } pl.did_hold

/-- A snapshot: matrix, queue front-first, optional hold piece. -/
structure Snapshot where
  matrix : BasicMatrix
  queue : List Color
  hold : Option Color

/-- `From<Snapshot> for State`: reverse the queue; push the hold color (if
any) on top and set `has_held`. -/
def State.from_snapshot (ss : Snapshot) : State :=
  match ss.hold with
  | some c =>
    { matrix := ss.matrix, queue_rev := ss.queue.reverse ++ [c],
      has_held := true, is_goal := false }
  | none =>
    { matrix := ss.matrix, queue_rev := ss.queue.reverse,
      has_held := false, is_goal := false }

/-- The ways the node layer can abort: the trace-byte assertion in
`Node::successor`, or the queue removal panicking in `State::pop`. -/
inductive EnginePanic
  | assert_failed
  | queue_underflow
deriving DecidableEq, Repr

/-- Search node (from `ai/node.rs`): state, score, penalty, traceback of
successor indexes (one byte each). -/
structure Node where
  state : State
  score : Int
  penalty : Int
  trace : List Nat

/-- `Node::new`: score starts at the `i64::MAX` sentinel, penalty zero,
empty trace. -/
def Node.new (st : State) : Node :=
  { state := st, score := 9223372036854775807, penalty := 0, trace := [] }

/-- `Node::depth` is the trace length. -/
def Node.depth (n : Node) : Nat := n.trace.length

/-- `Node::successor`. `eval_score` models `eval(&matrix).score(scoring)`
and `pen` models `penalty(scoring, depth)` (both from `score.rs`, which is
not under the verified sources; the spec leaves them as free parameters).
The source first asserts `idx < u8::MAX`, then appends `idx as u8` to the
trace, applies the placement, and computes score and penalty at the new
depth. -/
def Node.successor (n : Node) (eval_score : BasicMatrix → Int) (pen : Nat → Int)
    (idx : Nat) (pl : Place) : Except EnginePanic Node :=
  if 255 ≤ idx then Except.error EnginePanic.assert_failed
  else
    let trace1 := n.trace ++ [idx % 256]
    match n.state.place pl with
    | none => Except.error EnginePanic.queue_underflow
    | some st1 =>
      Except.ok
        { state := st1,
          score := if st1.is_goal then (trace1.length : Int) - 1000 else eval_score st1.matrix,
          penalty := pen trace1.length,
          trace := trace1 }


/-- The element `i + 1` positions from the top of the reversed queue, as the
checked-subtraction indexing computes it, is element `i` of the reverse. -/
lemma from_top_one {α : Type} (l : List α) :
    (if l.length < 1 then none else l.get? (l.length - 1)) = l.reverse.get? 0 := by
  by_cases h : l.length < 1
  · rw [if_pos h, List.get?_eq_getElem?,
      List.getElem?_eq_none (by rw [List.length_reverse]; omega)]
  · rw [if_neg h, List.get?_eq_getElem?, List.get?_eq_getElem?,
      List.getElem?_reverse (show 0 < l.length by omega)]
    have e : l.length - 1 - 0 = l.length - 1 := by omega
    rw [e]

lemma from_top_two {α : Type} (l : List α) :
    (if l.length < 2 then none else l.get? (l.length - 2)) = l.reverse.get? 1 := by
  by_cases h : l.length < 2
  · rw [if_pos h, List.get?_eq_getElem?,
      List.getElem?_eq_none (by rw [List.length_reverse]; omega)]
  · rw [if_neg h, List.get?_eq_getElem?, List.get?_eq_getElem?,
      List.getElem?_reverse (show 1 < l.length by omega)]
    have e : l.length - 1 - 1 = l.length - 2 := by omega
    rw [e]

/-- C9: `State::place` panics exactly when the queue is shorter than the
removal position (1 from the end when `has_held == did_hold`, else 2); under
that precondition the removal index is in range and `place` succeeds. -/
theorem place_isSome_iff (s : State) (pl : Place) :
    (s.place pl).isSome = true ↔
      (if s.has_held == pl.did_hold then 1 else 2) ≤ s.queue_rev.length := by
  by_cases h : s.queue_rev.length < (if s.has_held == pl.did_hold then 1 else 2)
  · simp only [State.place, State.pop, if_pos h, Option.isSome_none,
      Bool.false_eq_true, false_iff]
    omega
  · simp only [State.place, State.pop, if_neg h, Option.isSome_some, true_iff]
    omega

/-- C4: under the queue-length precondition, `State::place` removes exactly
the element at position 1 from the end when `has_held == did_hold` (else
position 2), shrinks the queue by exactly one, and sets
`has_held := has_held || did_hold`. -/
theorem place_pops_one (s : State) (pl : Place)
    (h : (if s.has_held == pl.did_hold then 1 else 2) ≤ s.queue_rev.length) :
    ∃ s', s.place pl = some s'
      ∧ s'.queue_rev = s.queue_rev.eraseIdx
          (s.queue_rev.length - (if s.has_held == pl.did_hold then 1 else 2))
      ∧ s'.queue_rev.length + 1 = s.queue_rev.length
      ∧ s'.has_held = (s.has_held || pl.did_hold) := by
  have h1 : 1 ≤ (if s.has_held == pl.did_hold then 1 else 2) := by
    split <;> omega
  have h2 : ¬ s.queue_rev.length < (if s.has_held == pl.did_hold then 1 else 2) := by
    omega
  refine ⟨{ matrix := (pl.shape.blit_to s.matrix pl.tf).sift_rows.2,
            queue_rev := s.queue_rev.eraseIdx
              (s.queue_rev.length - (if s.has_held == pl.did_hold then 1 else 2)),
            has_held := s.has_held || pl.did_hold,
            is_goal := (pl.shape.blit_to s.matrix pl.tf).sift_rows.1 }, ?_, rfl, ?_, rfl⟩
  · simp only [State.place, State.pop, if_neg h2]
  · simp only [List.length_eraseIdx]
    rw [if_pos (by omega)]
    omega

/-- C5: `State::next` returns `(top, second-from-top)` of the reversed queue
when `has_held` is unset and the swapped pair when it is set; on the snapshot
with hold `S` and queue `LTJI` it returns `(L, S)`, then `(T, L)` after
`pop(true)`, then `(J, L)` after `pop(false)`. -/
theorem next_observation :
    (∀ s : State, s.next = if s.has_held
        then (s.queue_rev.reverse.get? 1, s.queue_rev.reverse.get? 0)
        else (s.queue_rev.reverse.get? 0, s.queue_rev.reverse.get? 1))
    ∧ (let s0 := State.from_snapshot
        { matrix := BasicMatrix.with_cols 10,
          queue := ['L', 'T', 'J', 'I'], hold := some 'S' }
       s0.next = (some 'L', some 'S')
        ∧ (s0.pop true).map State.next = some (some 'T', some 'L')
        ∧ ((s0.pop true).bind fun s1 => (s1.pop false).map State.next) =
            some (some 'J', some 'L')) := by
  constructor
  · intro s
    cases hh : s.has_held <;>
      simp only [State.next, hh, Bool.false_eq_true, if_false, if_true] <;>
      rw [← from_top_one, ← from_top_two]
  · refine ⟨by decide, by decide, by decide⟩

/-- C6: a successor node appends `idx` to the trace (so its depth grows by
one and trace length equals depth), carries the placed state, scores
`depth - 1000` at a goal and the evaluated matrix score otherwise, and takes
the depth-dependent penalty. -/
theorem successor_fields (ev : BasicMatrix → Int) (pen : Nat → Int) (idx : Nat)
    (pl : Place) (n : Node) (st1 : State)
    (h1 : idx < 255) (h2 : n.state.place pl = some st1) :
    ∃ n', n.successor ev pen idx pl = Except.ok n'
      ∧ n'.trace = n.trace ++ [idx]
      ∧ n'.depth = n.depth + 1
      ∧ n'.trace.length = n'.depth
      ∧ n'.state = st1
      ∧ n'.score =
          (if st1.is_goal then ((n.depth + 1 : Nat) : Int) - 1000 else ev st1.matrix)
      ∧ n'.penalty = pen (n.depth + 1) := by
  have h3 : ¬ 255 ≤ idx := by omega
  have h4 : idx % 256 = idx := Nat.mod_eq_of_lt (by omega)
  have h5 : n.successor ev pen idx pl = Except.ok
      { state := st1,
        score := if st1.is_goal then ((n.depth + 1 : Nat) : Int) - 1000 else ev st1.matrix,
        penalty := pen (n.depth + 1),
        trace := n.trace ++ [idx] } := by
    simp only [Node.successor, if_neg h3, h2, h4, List.length_append,
      List.length_singleton, Node.depth]
  refine ⟨_, h5, rfl, ?_, rfl, rfl, rfl, rfl⟩
  simp [Node.depth]

/-- C7: `Node::successor` hits the trace-byte assertion exactly when
`idx ≥ 255`; for `idx < 255` the assertion passes and any produced node's
appended trace entry is `idx` itself, unchanged by the one-byte encoding. -/
theorem successor_assert (ev : BasicMatrix → Int) (pen : Nat → Int) (idx : Nat)
    (pl : Place) (n : Node) :
    (255 ≤ idx → n.successor ev pen idx pl = Except.error EnginePanic.assert_failed)
    ∧ (idx < 255 →
        n.successor ev pen idx pl ≠ Except.error EnginePanic.assert_failed
        ∧ ∀ n', n.successor ev pen idx pl = Except.ok n' →
            n'.trace = n.trace ++ [idx]) := by
  constructor
  · intro h
    simp only [Node.successor, if_pos h]
  · intro h
    have h3 : ¬ 255 ≤ idx := by omega
    have h4 : idx % 256 = idx := Nat.mod_eq_of_lt (by omega)
    simp only [Node.successor, if_neg h3]
    cases hp : n.state.place pl with
    | none => exact ⟨by simp, fun n' hn' => by simp at hn'⟩
    | some st1 =>
      refine ⟨by simp, fun n' hn' => ?_⟩
      simp only [Except.ok.injEq] at hn'
      rw [← hn', h4]

/-- Concrete single-cell shape used by the witnesses below. -/
def w_shape : Shape :=
  { color := 'O', cells := fun _ => [(0, 0)], kicks := fun _ _ => [] }

/-- Concrete starting state used by the witnesses below. -/
def w_state : State :=
  State.from_snapshot { matrix := BasicMatrix.with_cols 1, queue := ['I'], hold := none }

/-- Concrete placement used by the witnesses below. -/
def w_pl : Place := Place.new w_shape (0, 0, Orientation.R0) false

/-- The result of applying `w_pl` to `w_state`: the single cell fills the
only column, the row sifts away, and the queue empties. -/
def w_state1 : State :=
  { matrix := { cols := 1, data := [] }, queue_rev := [], has_held := false,
    is_goal := true }

/-- A state with a held piece and two queued pieces, for the C4 witness. -/
def w_state2 : State :=
  { matrix := BasicMatrix.with_cols 2, queue_rev := ['I', 'J'], has_held := true,
    is_goal := false }

theorem place_pops_one_witness :
    (if w_state2.has_held == w_pl.did_hold then 1 else 2) ≤ w_state2.queue_rev.length
    ∧ ∃ s', w_state2.place w_pl = some s'
      ∧ s'.queue_rev = w_state2.queue_rev.eraseIdx
          (w_state2.queue_rev.length - (if w_state2.has_held == w_pl.did_hold then 1 else 2))
      ∧ s'.queue_rev.length + 1 = w_state2.queue_rev.length
      ∧ s'.has_held = (w_state2.has_held || w_pl.did_hold) :=
  ⟨by decide, place_pops_one w_state2 w_pl (by decide)⟩

/-- Trivial evaluator model for the witnesses. -/
def w_ev : BasicMatrix → Int := fun _ => 7

/-- Trivial penalty model for the witnesses. -/
def w_pen : Nat → Int := fun d => (d : Int)

theorem successor_fields_witness :
    (3 < 255 ∧ (Node.new w_state).state.place w_pl = some w_state1)
    ∧ ∃ n', (Node.new w_state).successor w_ev w_pen 3 w_pl = Except.ok n'
      ∧ n'.trace = (Node.new w_state).trace ++ [3]
      ∧ n'.depth = (Node.new w_state).depth + 1
      ∧ n'.trace.length = n'.depth
      ∧ n'.state = w_state1
      ∧ n'.score = (if w_state1.is_goal
          then (((Node.new w_state).depth + 1 : Nat) : Int) - 1000
          else w_ev w_state1.matrix)
      ∧ n'.penalty = w_pen ((Node.new w_state).depth + 1) :=
  ⟨⟨by decide, by decide⟩,
    successor_fields w_ev w_pen 3 w_pl (Node.new w_state) w_state1 (by decide) (by decide)⟩

theorem successor_assert_witness :
    (255 ≤ 300
      ∧ (Node.new w_state).successor w_ev w_pen 300 w_pl =
          Except.error EnginePanic.assert_failed)
    ∧ (3 < 255
      ∧ (Node.new w_state).successor w_ev w_pen 3 w_pl ≠
          Except.error EnginePanic.assert_failed) :=
  ⟨⟨by decide, (successor_assert w_ev w_pen 300 w_pl (Node.new w_state)).1 (by decide)⟩,
    ⟨by decide, ((successor_assert w_ev w_pen 3 w_pl (Node.new w_state)).2 (by decide)).1⟩⟩

lemma push_shape_normals_seen (f : PlaceFinder) (tb : ShapeTable) (c : Color) (hold : Bool) :
    (f.push_shape tb c hold).normals_seen = f.normals_seen := by
  unfold PlaceFinder.push_shape
  cases tb c <;> rfl

lemma prime_finder_normals_seen (tb : ShapeTable) (m : BasicMatrix) (l : List (Color × Bool)) :
    (prime_finder tb m l).normals_seen = ∅ := by
  suffices h : ∀ (l2 : List (Color × Bool)) (f : PlaceFinder),
      (l2.foldl (fun f p => f.push_shape tb p.1 p.2) f).normals_seen = f.normals_seen by
    exact h l _
  intro l2
  induction l2 with
  | nil => intro f; rfl
  | cons p t ih =>
    intro f
    rw [List.foldl_cons, ih, push_shape_normals_seen]

/-- Along any run, the index assigned at a yield is the count of normalized
transforms seen so far, which counts exactly the previous yields. -/
lemma run_finder_idx_eq : ∀ (fuel : Nat) (f : PlaceFinder),
    (run_finder fuel f).map Place.idx =
      List.range' f.normals_seen.card (run_finder fuel f).length := by
  intro fuel
  induction fuel with
  | zero =>
    intro f
    simp [run_finder]
  | succ n ih =>
    intro f
    cases hq : f.queue with
    | nil => simp [run_finder, hq]
    | cons pl rest =>
      simp only [run_finder, hq]
      split_ifs with hc hr
      · exact ih _
      · rw [ih, Finset.insert_eq_self.mpr hr]
      · rw [List.map_cons, List.length_cons, List.range'_succ, ih,
          Finset.card_insert_of_not_mem hr]

/-- Along any run, every yielded placement has a normalized transform that
was not yet in `normals_seen`, and the yielded normals are pairwise
distinct. -/
lemma run_finder_normal_fresh : ∀ (fuel : Nat) (f : PlaceFinder),
    ((run_finder fuel f).map Place.normal).Nodup
    ∧ ∀ pl2 ∈ run_finder fuel f, pl2.normal ∉ f.normals_seen := by
  intro fuel
  induction fuel with
  | zero =>
    intro f
    simp [run_finder]
  | succ n ih =>
    intro f
    cases hq : f.queue with
    | nil => simp [run_finder, hq]
    | cons pl rest =>
      simp only [run_finder, hq]
      split_ifs with hc hr
      · exact ih _
      · refine ⟨(ih _).1, fun pl2 hmem => ?_⟩
        intro hmem2
        exact (ih _).2 pl2 hmem (Finset.mem_insert_of_mem hmem2)
      · constructor
        · rw [List.map_cons, List.nodup_cons]
          refine ⟨?_, (ih _).1⟩
          intro hmem
          rcases List.mem_map.mp hmem with ⟨pl2, hpl2, hnorm⟩
          have h2 := (ih _).2 pl2 hpl2
          rw [hnorm] at h2
          exact h2 (Finset.mem_insert_self _ _)
        · intro pl2 hmem
          rcases List.mem_cons.mp hmem with he | hmem2
          · rw [he]
            exact hr
          · intro hmem3
            exact (ih _).2 pl2 hmem2 (Finset.mem_insert_of_mem hmem3)

/-- C3: on any primed finder run, the `idx` values of the yielded sequence
are exactly `0, 1, 2, …`: the n-th yielded placement has `idx = n`. -/
theorem yielded_idx_contiguous (tb : ShapeTable) (m : BasicMatrix)
    (l : List (Color × Bool)) (fuel : Nat) :
    (run_finder fuel (prime_finder tb m l)).map Place.idx =
      List.range (run_finder fuel (prime_finder tb m l)).length := by
  rw [run_finder_idx_eq, prime_finder_normals_seen, Finset.card_empty,
    List.range_eq_range']

/-- C2: no two placements yielded during a primed finder run share a
normalized shape transform (the canonical key over final occupied cells). -/
theorem yielded_normals_distinct (tb : ShapeTable) (m : BasicMatrix)
    (l : List (Color × Bool)) (fuel : Nat) :
    ((run_finder fuel (prime_finder tb m l)).map Place.normal).Nodup :=
  (run_finder_normal_fresh fuel (prime_finder tb m l)).1

lemma drop_aux_snd : ∀ (fuel : Nat) (m : BasicMatrix) (s : Shape) (tf : Transform),
    (drop_aux fuel m s tf).2 = tf.2 := by
  intro fuel
  induction fuel with
  | zero =>
    intro m s tf
    rfl
  | succ n ih =>
    intro m s tf
    simp only [drop_aux]
    split
    · rfl
    · rw [ih]
      rfl

lemma overlaps_of_neg_row (m : BasicMatrix) (s : Shape) (tf : Transform)
    (d : Int × Int) (hd : d ∈ s.cells tf.2.2) (hneg : tf.1 + d.1 < 0) :
    m.overlaps s tf = true := by
  unfold BasicMatrix.overlaps
  rw [List.any_eq_true]
  refine ⟨d, hd, ?_⟩
  simp [hneg]

lemma drop_aux_rest (m : BasicMatrix) (s : Shape) (d : Int × Int) :
    ∀ (fuel : Nat) (tf : Transform), (s.cells tf.2.2).head? = some d →
      tf.1 + d.1 + 2 ≤ (fuel : Int) →
      m.overlaps s (down1 (drop_aux fuel m s tf)) = true := by
  intro fuel
  induction fuel with
  | zero =>
    intro tf hd hle
    have hmem : d ∈ s.cells tf.2.2 := List.mem_of_mem_head? (by rw [hd]; rfl)
    exact overlaps_of_neg_row m s (down1 tf) d hmem (by
      show tf.1 - 1 + d.1 < 0
      simp only [Nat.cast_zero] at hle
      omega)
  | succ n ih =>
    intro tf hd hle
    simp only [drop_aux]
    split
    · next h => exact h
    · next h =>
      apply ih (down1 tf) hd
      show tf.1 - 1 + d.1 + 2 ≤ (n : Int)
      push_cast at hle
      omega

lemma sonic_drop_rest (m : BasicMatrix) (s : Shape) (tf : Transform)
    (hc : s.cells tf.2.2 ≠ []) :
    m.overlaps s (down1 (s.sonic_drop m tf)) = true := by
  cases hd : (s.cells tf.2.2).head? with
  | none => exact absurd (List.head?_eq_none_iff.mp hd) hc
  | some d =>
    have hf : drop_fuel s tf = (tf.1 + d.1 + 2).toNat := by
      simp [drop_fuel, hd]
    show m.overlaps s (down1 (drop_aux (drop_fuel s tf) m s tf)) = true
    rw [hf]
    exact drop_aux_rest m s d _ tf hd (Int.self_le_toNat _)

lemma sonic_drop_snd (m : BasicMatrix) (s : Shape) (tf : Transform) :
    (s.sonic_drop m tf).2 = tf.2 :=
  drop_aux_snd _ m s tf

/-- Sonic drop is idempotent: its image is exactly the set of resting
transforms. -/
lemma sonic_drop_idem (m : BasicMatrix) (s : Shape) (tf : Transform) :
    s.sonic_drop m (s.sonic_drop m tf) = s.sonic_drop m tf := by
  by_cases hc : s.cells tf.2.2 = []
  · have h1 : drop_fuel s tf = 0 := by
      simp [drop_fuel, List.head?_eq_none_iff.mpr hc]
    have h2 : s.sonic_drop m tf = tf := by
      show drop_aux (drop_fuel s tf) m s tf = tf
      rw [h1]
      rfl
    rw [h2]
    exact h2
  · have hrest := sonic_drop_rest m s tf hc
    show drop_aux (drop_fuel s (s.sonic_drop m tf)) m s (s.sonic_drop m tf) =
      s.sonic_drop m tf
    cases hf : drop_fuel s (s.sonic_drop m tf) with
    | zero => rfl
    | succ k => simp [drop_aux, hrest]

/-- The placements pushed by `expand` all come from `Place::input`. -/
lemma expand_list_mem (f : PlaceFinder) (pl x : Place) (hx : x ∈ f.expand_list pl) :
    ∃ inp, pl.input f.matrix inp = some x := by
  unfold PlaceFinder.expand_list at hx
  rcases List.mem_filterMap.mp hx with ⟨inp, _, hinp⟩
  exact ⟨inp, hinp⟩

/-- Generic invariant for the finder loop: any property of placements that
ignores the index and is preserved by `Place::input` on the finder's matrix
transfers from the queue to every yielded placement. -/
lemma run_finder_mem_of_inv (m : BasicMatrix) (Q : Place → Prop)
    (hidx : ∀ pl k, Q pl → Q { pl with idx := k })
    (hstep : ∀ pl inp pl', Q pl → Place.input pl m inp = some pl' → Q pl') :
    ∀ (fuel : Nat) (f : PlaceFinder), f.matrix = m →
      (∀ pl ∈ f.queue, Q pl) → ∀ pl ∈ run_finder fuel f, Q pl := by
  intro fuel
  induction fuel with
  | zero =>
    intro f hm hq pl hmem
    simp [run_finder] at hmem
  | succ n ih =>
    intro f hm hq pl hmem
    cases hqe : f.queue with
    | nil =>
      simp [run_finder, hqe] at hmem
    | cons pl0 rest =>
      simp only [run_finder, hqe] at hmem
      have hq0 : Q pl0 := hq pl0 (by rw [hqe]; exact List.mem_cons_self _ _)
      have hqrest : ∀ x ∈ rest, Q x := fun x hx =>
        hq x (by rw [hqe]; exact List.mem_cons_of_mem _ hx)
      have hnew : ∀ x ∈ (f.expand_list { pl0 with idx := f.normals_seen.card }).reverse
          ++ rest, Q x := by
        intro x hx
        rcases List.mem_append.mp hx with hx1 | hx2
        · rcases expand_list_mem f _ x (List.mem_reverse.mp hx1) with ⟨inp, hinp⟩
          rw [hm] at hinp
          exact hstep _ inp x (hidx pl0 _ hq0) hinp
        · exact hqrest x hx2
      split_ifs at hmem with hc hr
      · refine ih _ ?_ ?_ pl hmem
        · exact hm
        · exact hqrest
      · refine ih _ ?_ ?_ pl hmem
        · exact hm
        · exact hnew
      · rcases List.mem_cons.mp hmem with he | hmem2
        · rw [he]
          exact hidx pl0 _ hq0
        · refine ih _ ?_ ?_ pl hmem2
          · exact hm
          · exact hnew

lemma push_shape_matrix (f : PlaceFinder) (tb : ShapeTable) (c : Color) (hold : Bool) :
    (f.push_shape tb c hold).matrix = f.matrix := by
  unfold PlaceFinder.push_shape
  cases tb c <;> rfl

lemma prime_finder_matrix (tb : ShapeTable) (m : BasicMatrix) (l : List (Color × Bool)) :
    (prime_finder tb m l).matrix = m := by
  suffices h : ∀ (l2 : List (Color × Bool)) (f : PlaceFinder),
      (l2.foldl (fun f p => f.push_shape tb p.1 p.2) f).matrix = f.matrix by
    exact h l _
  intro l2
  induction l2 with
  | nil => intro f; rfl
  | cons p t ih =>
    intro f
    rw [List.foldl_cons, ih, push_shape_matrix]

/-- Every element of the queue after `push_shape` is an old element or a
peak placement of the pushed shape. -/
lemma push_shape_queue_mem (f : PlaceFinder) (tb : ShapeTable) (c : Color)
    (hold : Bool) (pl : Place) (hmem : pl ∈ (f.push_shape tb c hold).queue) :
    pl ∈ f.queue ∨ ∃ s, tb c = some s ∧ ∃ r j, j ∈ s.valid_cols r f.matrix.cols
      ∧ pl = Place.new s (s.peak f.matrix j r, j, r) hold := by
  unfold PlaceFinder.push_shape at hmem
  cases htc : tb c with
  | none =>
    rw [htc] at hmem
    exact Or.inl hmem
  | some s =>
    rw [htc] at hmem
    rcases List.mem_append.mp hmem with h1 | h2
    · right
      refine ⟨s, rfl, ?_⟩
      have h1' := List.mem_reverse.mp h1
      unfold peak_places at h1'
      rcases List.mem_flatMap.mp h1' with ⟨r, _, hmem2⟩
      rcases List.mem_map.mp hmem2 with ⟨j, hj, he⟩
      exact ⟨r, j, hj, he.symm⟩
    · exact Or.inl h2

/-- Every element of a freshly primed queue is a peak placement of one of
the pushed shapes. -/
lemma prime_finder_queue_mem (tb : ShapeTable) (m : BasicMatrix)
    (l : List (Color × Bool)) (pl : Place)
    (hmem : pl ∈ (prime_finder tb m l).queue) :
    ∃ p ∈ l, ∃ s, tb p.1 = some s ∧ ∃ r j, j ∈ s.valid_cols r m.cols
      ∧ pl = Place.new s (s.peak m j r, j, r) p.2 := by
  suffices h : ∀ (l2 : List (Color × Bool)) (f : PlaceFinder),
      pl ∈ (l2.foldl (fun f p => f.push_shape tb p.1 p.2) f).queue →
      pl ∈ f.queue ∨ ∃ p ∈ l2, ∃ s, tb p.1 = some s ∧ ∃ r j,
        j ∈ s.valid_cols r f.matrix.cols
        ∧ pl = Place.new s (s.peak f.matrix j r, j, r) p.2 by
    rcases h l (PlaceFinder.new.reset_matrix m) hmem with h1 | h2
    · exact absurd h1 (by simp [PlaceFinder.new, PlaceFinder.reset_matrix])
    · exact h2
  intro l2
  induction l2 with
  | nil =>
    intro f h
    exact Or.inl h
  | cons p t ih =>
    intro f h
    rw [List.foldl_cons] at h
    rcases ih _ h with h1 | ⟨p2, hp2, s, hs, r, j, hj, he⟩
    · rcases push_shape_queue_mem f tb p.1 p.2 pl h1 with h2 | ⟨s, hs, r, j, hj, he⟩
      · exact Or.inl h2
      · exact Or.inr ⟨p, List.mem_cons_self _ _, s, hs, r, j, hj, he⟩
    · rw [push_shape_matrix] at hj he
      exact Or.inr ⟨p2, List.mem_cons_of_mem _ hp2, s, hs, r, j, hj, he⟩

/-- A peak placement is at rest: peaking is a sonic drop, and sonic drop is
idempotent. -/
lemma peak_rest (m : BasicMatrix) (s : Shape) (j : Int) (r : Orientation) :
    s.sonic_drop m (s.peak m j r, j, r) = (s.peak m j r, j, r) := by
  have h2 : ((s.peak m j r, j, r) : Transform) =
      s.sonic_drop m ((m.rows : Int) + (shape_bound s : Int), j, r) := by
    unfold Shape.peak
    exact Prod.ext rfl
      (sonic_drop_snd m s ((m.rows : Int) + (shape_bound s : Int), j, r)).symm
  rw [h2, sonic_drop_idem]

/-- One finder search step on transforms: a successful input immediately
followed by a sonic drop. -/
def input_drop_step (m : BasicMatrix) (s : Shape) (tf tf' : Transform) : Prop :=
  ∃ inp tf0, s.try_input m tf inp = some tf0 ∧ tf' = s.sonic_drop m tf0

/-- Reachability by a finite sequence of `{Left, Right, CW, CCW}` inputs,
each immediately followed by a sonic drop. -/
def reachable_by_inputs (m : BasicMatrix) (s : Shape) : Transform → Transform → Prop :=
  Relation.ReflTransGen (input_drop_step m s)

/-- An initial placement of `push_shape`: the peak of some valid column in
some orientation. -/
def is_peak_start (m : BasicMatrix) (s : Shape) (tf : Transform) : Prop :=
  ∃ r j, j ∈ s.valid_cols r m.cols ∧ tf = (s.peak m j r, j, r)

/-- C1: every placement yielded by a primed run is at rest (sonic drop
fixes its transform) and is reachable from some initial peak placement of
`push_shape` by a finite sequence of inputs each followed by a sonic
drop. -/
theorem yielded_at_rest_and_reachable (tb : ShapeTable) (m : BasicMatrix)
    (l : List (Color × Bool)) (fuel : Nat) :
    (run_finder fuel (prime_finder tb m l)).Forall (fun pl =>
      pl.shape.sonic_drop m pl.tf = pl.tf
      ∧ ∃ tf0, is_peak_start m pl.shape tf0
          ∧ reachable_by_inputs m pl.shape tf0 pl.tf) := by
  rw [List.forall_iff_forall_mem]
  apply run_finder_mem_of_inv m (fun pl =>
      pl.shape.sonic_drop m pl.tf = pl.tf
      ∧ ∃ tf0, is_peak_start m pl.shape tf0
          ∧ reachable_by_inputs m pl.shape tf0 pl.tf)
    _ _ fuel _ (prime_finder_matrix tb m l)
  · intro pl hmem
    rcases prime_finder_queue_mem tb m l pl hmem with ⟨p, _, s, _, r, j, hj, he⟩
    rw [he]
    exact ⟨peak_rest m s j r,
      (s.peak m j r, j, r), ⟨r, j, hj, rfl⟩, Relation.ReflTransGen.refl⟩
  · intro pl k hQ
    exact hQ
  · intro pl inp pl' hQ hinp
    unfold Place.input at hinp
    rcases Option.map_eq_some'.mp hinp with ⟨tf0, htf0, he⟩
    rw [← he]
    refine ⟨sonic_drop_idem m pl.shape tf0, ?_⟩
    rcases hQ with ⟨_, tfs, hpeak, hreach⟩
    exact ⟨tfs, hpeak, hreach.tail ⟨inp, tf0, htf0, rfl⟩⟩

/-- C8: `push_shape` with a color that has no shape in the table leaves the
finder unchanged, and when no queued placement has that color, no placement
of that color is ever yielded. -/
theorem push_shape_missing_color (tb : ShapeTable) (c : Color) (hold : Bool)
    (f : PlaceFinder) (h1 : tb c = none)
    (h2 : ∀ pl ∈ f.queue, pl.shape.color ≠ c) :
    f.push_shape tb c hold = f
    ∧ ∀ fuel, (run_finder fuel (f.push_shape tb c hold)).Forall
        (fun pl => pl.shape.color ≠ c) := by
  have he : f.push_shape tb c hold = f := by
    unfold PlaceFinder.push_shape
    rw [h1]
  refine ⟨he, fun fuel => ?_⟩
  rw [he, List.forall_iff_forall_mem]
  apply run_finder_mem_of_inv f.matrix (fun pl => pl.shape.color ≠ c) _ _ fuel f rfl h2
  · intro pl k hQ
    exact hQ
  · intro pl inp pl' hQ hinp
    unfold Place.input at hinp
    rcases Option.map_eq_some'.mp hinp with ⟨tf0, _, he2⟩
    rw [← he2]
    exact hQ

theorem push_shape_missing_color_witness :
    ((fun _ => none : ShapeTable) 'T' = none
      ∧ ∀ pl ∈ PlaceFinder.new.queue, pl.shape.color ≠ 'T')
    ∧ (PlaceFinder.new.push_shape (fun _ => none) 'T' false = PlaceFinder.new
      ∧ ∀ fuel, (run_finder fuel (PlaceFinder.new.push_shape (fun _ => none) 'T' false)).Forall
          (fun pl => pl.shape.color ≠ 'T')) :=
  ⟨⟨rfl, by simp [PlaceFinder.new]⟩,
    push_shape_missing_color (fun _ => none) 'T' false PlaceFinder.new rfl
      (by simp [PlaceFinder.new])⟩

/-- A transform that does not overlap but whose one-step drop does: the
resting transforms the finder's queue is made of. -/
def valid_rest (m : BasicMatrix) (s : Shape) (tf : Transform) : Prop :=
  m.overlaps s tf = false ∧ m.overlaps s (down1 tf) = true

/-- A finite box of transforms containing every resting transform of a
shape on a matrix. -/
def tf_box (s : Shape) (m : BasicMatrix) : Finset Transform :=
  (Finset.Icc (-(shape_bound s : Int)) ((m.rows : Int) + (shape_bound s : Int))) ×ˢ
    ((Finset.Icc (-(shape_bound s : Int)) ((m.cols : Int) + (shape_bound s : Int))) ×ˢ
      (Finset.univ : Finset Orientation))

lemma le_foldr_max : ∀ {l : List Nat} {a : Nat}, a ∈ l → a ≤ l.foldr max 0 := by
  intro l
  induction l with
  | nil =>
    intro a h
    simp at h
  | cons b t ih =>
    intro a h
    rcases List.mem_cons.mp h with he | ht
    · rw [he]
      exact le_max_left _ _
    · exact le_trans (ih ht) (le_max_right _ _)

lemma cell_le_shape_bound (s : Shape) (r : Orientation) (d : Int × Int)
    (hd : d ∈ s.cells r) :
    d.1.natAbs ≤ shape_bound s ∧ d.2.natAbs ≤ shape_bound s := by
  have hr : r ∈ Orientation.iter_all := by
    cases r <;> simp [Orientation.iter_all]
  have hmem : max d.1.natAbs d.2.natAbs ∈
      ((Orientation.iter_all.flatMap s.cells).map (fun d => max d.1.natAbs d.2.natAbs)) :=
    List.mem_map.mpr ⟨d, List.mem_flatMap.mpr ⟨r, hr, hd⟩, rfl⟩
  have h := le_foldr_max hmem
  unfold shape_bound
  omega

lemma overlaps_false_iff (m : BasicMatrix) (s : Shape) (tf : Transform) :
    m.overlaps s tf = false ↔
      ∀ d ∈ s.cells tf.2.2, 0 ≤ tf.2.1 + d.2 ∧ tf.2.1 + d.2 < (m.cols : Int)
        ∧ 0 ≤ tf.1 + d.1 ∧ m.get (tf.1 + d.1) (tf.2.1 + d.2) = false := by
  unfold BasicMatrix.overlaps
  rw [List.any_eq_false]
  constructor
  · intro h d hd
    have h2 := h d hd
    simp only [Bool.or_eq_true, decide_eq_true_eq, Bool.not_eq_true, not_or,
      not_lt, not_le] at h2
    tauto
  · intro h d hd
    have h2 := h d hd
    simp only [Bool.or_eq_true, decide_eq_true_eq, Bool.not_eq_true, not_or,
      not_lt, not_le]
    tauto

lemma overlaps_true_exists (m : BasicMatrix) (s : Shape) (tf : Transform)
    (h : m.overlaps s tf = true) :
    ∃ d ∈ s.cells tf.2.2, tf.2.1 + d.2 < 0 ∨ (m.cols : Int) ≤ tf.2.1 + d.2
      ∨ tf.1 + d.1 < 0 ∨ m.get (tf.1 + d.1) (tf.2.1 + d.2) = true := by
  unfold BasicMatrix.overlaps at h
  rw [List.any_eq_true] at h
  rcases h with ⟨d, hd, hb⟩
  refine ⟨d, hd, ?_⟩
  simp only [Bool.or_eq_true, decide_eq_true_eq] at hb
  tauto

lemma get_true_row_lt (m : BasicMatrix) (i j : Int) (h : m.get i j = true) :
    0 ≤ i ∧ i < (m.rows : Int) := by
  unfold BasicMatrix.get at h
  by_cases hneg : (decide (i < 0) || decide (j < 0)) = true
  · rw [if_pos hneg] at h
    exact absurd h (by simp)
  · rw [if_neg hneg] at h
    simp only [Bool.or_eq_true, decide_eq_true_eq] at hneg
    push_neg at hneg
    refine ⟨by omega, ?_⟩
    by_contra hge
    push_neg at hge
    have hlen : m.data.length ≤ i.toNat := by
      unfold BasicMatrix.rows at hge
      omega
    rw [List.getD_eq_default _ _ hlen, List.getD_nil] at h
    exact absurd h (by simp)

lemma get_false_of_ge_rows (m : BasicMatrix) (i j : Int)
    (h : (m.rows : Int) ≤ i) : m.get i j = false := by
  unfold BasicMatrix.get
  by_cases hneg : (decide (i < 0) || decide (j < 0)) = true
  · rw [if_pos hneg]
  · rw [if_neg hneg]
    have hlen : m.data.length ≤ i.toNat := by
      unfold BasicMatrix.rows at h
      simp only [Bool.or_eq_true, decide_eq_true_eq] at hneg
      push_neg at hneg
      omega
    rw [List.getD_eq_default _ _ hlen, List.getD_nil]

/-- Every resting transform of a shape with nonempty cells lies in the
finite box. -/
lemma valid_mem_box (m : BasicMatrix) (s : Shape) (tf : Transform)
    (hc : s.cells tf.2.2 ≠ []) (hv : valid_rest m s tf) : tf ∈ tf_box s m := by
  rcases hv with ⟨hov, hrest⟩
  have hall := (overlaps_false_iff m s tf).mp hov
  rcases List.exists_mem_of_ne_nil (s.cells tf.2.2) hc with ⟨d0, hd0⟩
  have hb0 := cell_le_shape_bound s tf.2.2 d0 hd0
  have hd0all := hall d0 hd0
  have hj1 : -(shape_bound s : Int) ≤ tf.2.1 := by omega
  have hj2 : tf.2.1 ≤ (m.cols : Int) + (shape_bound s : Int) := by omega
  have hi1 : -(shape_bound s : Int) ≤ tf.1 := by omega
  rcases overlaps_true_exists m s (down1 tf) hrest with ⟨d1, hd1, hcase⟩
  simp only [down1] at hd1 hcase
  have hb1 := cell_le_shape_bound s tf.2.2 d1 hd1
  have hd1all := hall d1 hd1
  have hrows : (0 : Int) ≤ (m.rows : Int) := by positivity
  have hi2 : tf.1 ≤ (m.rows : Int) + (shape_bound s : Int) := by
    rcases hcase with hcj1 | hcj2 | hci | hget
    · omega
    · omega
    · omega
    · have := (get_true_row_lt m _ _ hget).2
      omega
  refine Finset.mem_product.mpr ⟨Finset.mem_Icc.mpr ⟨hi1, hi2⟩,
    Finset.mem_product.mpr ⟨Finset.mem_Icc.mpr ⟨hj1, hj2⟩, Finset.mem_univ _⟩⟩

lemma try_input_not_overlaps (m : BasicMatrix) (s : Shape) (tf : Transform)
    (inp : Input) (tf0 : Transform) (h : s.try_input m tf inp = some tf0) :
    m.overlaps s tf0 = false := by
  cases inp
  case Left =>
    simp only [Shape.try_input] at h
    split_ifs at h with hov
    injection h with h2
    rw [← h2]
    simpa using hov
  case Right =>
    simp only [Shape.try_input] at h
    split_ifs at h with hov
    injection h with h2
    rw [← h2]
    simpa using hov
  case CW =>
    simp only [Shape.try_input] at h
    unfold kick_try at h
    rcases Option.map_eq_some'.mp h with ⟨k, hk, he⟩
    have hp := List.find?_some hk
    rw [Bool.not_eq_true'] at hp
    rw [← he]
    exact hp
  case CCW =>
    simp only [Shape.try_input] at h
    unfold kick_try at h
    rcases Option.map_eq_some'.mp h with ⟨k, hk, he⟩
    have hp := List.find?_some hk
    rw [Bool.not_eq_true'] at hp
    rw [← he]
    exact hp

lemma drop_aux_not_overlaps (m : BasicMatrix) (s : Shape) :
    ∀ (fuel : Nat) (tf : Transform), m.overlaps s tf = false →
      m.overlaps s (drop_aux fuel m s tf) = false := by
  intro fuel
  induction fuel with
  | zero =>
    intro tf h
    exact h
  | succ n ih =>
    intro tf h
    simp only [drop_aux]
    split
    · exact h
    · next h2 =>
      exact ih (down1 tf) (by simpa using h2)

lemma sonic_drop_not_overlaps (m : BasicMatrix) (s : Shape) (tf : Transform)
    (h : m.overlaps s tf = false) : m.overlaps s (s.sonic_drop m tf) = false :=
  drop_aux_not_overlaps m s _ tf h

/-- A successful `Place::input` preserves the shape and produces a resting,
non-overlapping transform. -/
lemma place_input_valid (m : BasicMatrix) (pl pl' : Place) (inp : Input)
    (hc : ∀ r, pl.shape.cells r ≠ []) (h : pl.input m inp = some pl') :
    pl'.shape = pl.shape ∧ valid_rest m pl'.shape pl'.tf := by
  unfold Place.input at h
  rcases Option.map_eq_some'.mp h with ⟨tf0, htf0, he⟩
  rw [← he]
  exact ⟨rfl,
    sonic_drop_not_overlaps m pl.shape tf0 (try_input_not_overlaps m pl.shape _ inp tf0 htf0),
    sonic_drop_rest m pl.shape tf0 (hc _)⟩

lemma valid_cols_mem (s : Shape) (r : Orientation) (w : Nat) (j : Int)
    (hj : j ∈ s.valid_cols r w) :
    ∀ d ∈ s.cells r, 0 ≤ j + d.2 ∧ j + d.2 < (w : Int) := by
  unfold Shape.valid_cols at hj
  rw [List.mem_filter] at hj
  have h2 := hj.2
  rw [List.all_eq_true] at h2
  intro d hd
  have h3 := h2 d hd
  simp only [Bool.and_eq_true, decide_eq_true_eq] at h3
  exact h3

lemma start_not_overlaps (m : BasicMatrix) (s : Shape) (j : Int) (r : Orientation)
    (hj : j ∈ s.valid_cols r m.cols) :
    m.overlaps s ((m.rows : Int) + (shape_bound s : Int), j, r) = false := by
  apply (overlaps_false_iff m s _).mpr
  intro d hd
  have hb := cell_le_shape_bound s r d hd
  have hv := valid_cols_mem s r m.cols j hj d hd
  refine ⟨hv.1, hv.2, by omega, ?_⟩
  apply get_false_of_ge_rows
  omega

lemma peak_eq_sonic_drop (m : BasicMatrix) (s : Shape) (j : Int) (r : Orientation) :
    ((s.peak m j r, j, r) : Transform) =
      s.sonic_drop m ((m.rows : Int) + (shape_bound s : Int), j, r) := by
  unfold Shape.peak
  exact Prod.ext rfl
    (sonic_drop_snd m s ((m.rows : Int) + (shape_bound s : Int), j, r)).symm

/-- A peak placement of a valid column is resting and non-overlapping. -/
lemma peak_place_valid (m : BasicMatrix) (s : Shape) (j : Int) (r : Orientation)
    (hc : ∀ r2, s.cells r2 ≠ []) (hj : j ∈ s.valid_cols r m.cols) :
    valid_rest m s (s.peak m j r, j, r) := by
  rw [peak_eq_sonic_drop]
  exact ⟨sonic_drop_not_overlaps m s _ (start_not_overlaps m s j r hj),
    sonic_drop_rest m s _ (hc _)⟩

/-- Queue invariant for termination: nonempty cells, a resting transform,
and every resting transform of the same shape lies in the finite set `S`. -/
def good_place (S : Finset (Color × Transform)) (m : BasicMatrix) (pl : Place) : Prop :=
  (∀ r, pl.shape.cells r ≠ []) ∧ valid_rest m pl.shape pl.tf
    ∧ ∀ tf', valid_rest m pl.shape tf' → (pl.shape.color, tf') ∈ S

lemma good_place_key (S : Finset (Color × Transform)) (m : BasicMatrix) (pl : Place)
    (h : good_place S m pl) : (pl.shape.color, pl.tf) ∈ S :=
  h.2.2 _ h.2.1

lemma good_place_input (S : Finset (Color × Transform)) (m : BasicMatrix)
    (pl pl' : Place) (inp : Input) (h : good_place S m pl)
    (hinp : pl.input m inp = some pl') : good_place S m pl' := by
  rcases place_input_valid m pl pl' inp h.1 hinp with ⟨hs, hv⟩
  refine ⟨?_, hv, ?_⟩
  · rw [hs]
    exact h.1
  · intro tf' hv'
    rw [hs] at hv' ⊢
    exact h.2.2 tf' hv'

/-- The union of the per-shape boxes of all shapes pushed by the priming
list: a finite superset of every `(color, transform)` pair the finder can
ever see. -/
def table_box (tb : ShapeTable) (m : BasicMatrix) (l : List (Color × Bool)) :
    Finset (Color × Transform) :=
  ((l.filterMap (fun p => tb p.1)).map
    (fun s => ({s.color} : Finset Color) ×ˢ tf_box s m)).foldr (· ∪ ·) ∅

lemma subset_table_box (tb : ShapeTable) (m : BasicMatrix) (l : List (Color × Bool))
    (s : Shape) (hs : s ∈ l.filterMap (fun p => tb p.1)) :
    ({s.color} : Finset Color) ×ˢ tf_box s m ⊆ table_box tb m l := by
  unfold table_box
  revert hs
  generalize l.filterMap (fun p => tb p.1) = ss
  induction ss with
  | nil =>
    intro h
    simp at h
  | cons a t ih =>
    intro h
    rw [List.map_cons, List.foldr_cons]
    rcases List.mem_cons.mp h with he | ht
    · rw [he]
      exact Finset.subset_union_left
    · exact Finset.Subset.trans (ih ht) Finset.subset_union_right

/-- The finder invariant: the matrix is fixed and every queued placement is
good. -/
def finder_inv (S : Finset (Color × Transform)) (m : BasicMatrix)
    (f : PlaceFinder) : Prop :=
  f.matrix = m ∧ ∀ pl ∈ f.queue, good_place S m pl

/-- Termination measure: queue length plus five times the number of
not-yet-visited pairs of `S`. -/
def finder_measure (S : Finset (Color × Transform)) (f : PlaceFinder) : Nat :=
  f.queue.length + 5 * (S \ f.places_seen).card

lemma expand_list_length_le (f : PlaceFinder) (pl : Place) :
    (f.expand_list pl).length ≤ 4 := by
  unfold PlaceFinder.expand_list
  exact le_trans (List.length_filterMap_le _ _) (by simp)

lemma run_finder_queue_nil (n : Nat) (f : PlaceFinder) (h : f.queue = []) :
    run_finder n f = [] := by
  cases n
  · rfl
  · simp [run_finder, h]

/-- Any two fuels at least the measure produce the same yield list: the
fuelled loop has stabilized, so the iterator terminates. -/
lemma run_finder_stab (S : Finset (Color × Transform)) (m : BasicMatrix) :
    ∀ (k : Nat) (f : PlaceFinder), finder_inv S m f → finder_measure S f = k →
      ∀ n1 n2, k ≤ n1 → k ≤ n2 → run_finder n1 f = run_finder n2 f := by
  intro k
  induction k using Nat.strong_induction_on with
  | _ k ih =>
    intro f hinv hk n1 n2 h1 h2
    cases hq : f.queue with
    | nil => rw [run_finder_queue_nil n1 f hq, run_finder_queue_nil n2 f hq]
    | cons pl rest =>
      have hk1 : 1 ≤ k := by
        rw [← hk]
        unfold finder_measure
        rw [hq]
        simp only [List.length_cons]
        omega
      obtain ⟨m1, rfl⟩ : ∃ m1, n1 = m1 + 1 := ⟨n1 - 1, by omega⟩
      obtain ⟨m2, rfl⟩ : ∃ m2, n2 = m2 + 1 := ⟨n2 - 1, by omega⟩
      have hgood : good_place S m pl := hinv.2 pl (by rw [hq]; exact List.mem_cons_self _ _)
      have hrest : ∀ x ∈ rest, good_place S m x := fun x hx =>
        hinv.2 x (by rw [hq]; exact List.mem_cons_of_mem _ hx)
      have hkey : (pl.shape.color, pl.tf) ∈ S := good_place_key S m pl hgood
      have hrlen : rest.length + 1 = f.queue.length := by
        rw [hq]
        rfl
      have hqlen : f.queue.length = rest.length + 1 := by
        rw [hq]
        rfl
      have hgood1 : good_place S m { pl with idx := f.normals_seen.card } := hgood
      have hnew : ∀ x ∈ (f.expand_list
          { pl with idx := f.normals_seen.card }).reverse ++ rest,
          good_place S m x := by
        intro x hx
        rcases List.mem_append.mp hx with hx1 | hx2
        · rcases expand_list_mem f _ x (List.mem_reverse.mp hx1) with ⟨inp, hinp⟩
          rw [hinv.1] at hinp
          exact good_place_input S m _ x inp hgood1 hinp
        · exact hrest x hx2
      simp only [run_finder, hq]
      split_ifs with hc hr
      · -- the popped placement was already visited
        have hmeas1 : finder_measure S { f with
            queue := rest,
            places_seen := insert (pl.shape.color, pl.tf) f.places_seen } + 1 = k := by
          unfold finder_measure at hk ⊢
          rw [hq] at hk
          simp only [List.length_cons] at hk
          dsimp only
          rw [Finset.insert_eq_self.mpr hc]
          omega
        have hinv1 : finder_inv S m { f with
            queue := rest,
            places_seen := insert (pl.shape.color, pl.tf) f.places_seen } :=
          ⟨hinv.1, fun x hx => hrest x hx⟩
        exact ih _ (by omega) _ hinv1 rfl m1 m2 (by omega) (by omega)
      · -- expanded, but the normalized transform was already yielded
        have hnotmem : (pl.shape.color, pl.tf) ∈ S \ f.places_seen :=
          Finset.mem_sdiff.mpr ⟨hkey, hc⟩
        have hcard : (S \ insert (pl.shape.color, pl.tf) f.places_seen).card + 1
            = (S \ f.places_seen).card := by
          rw [Finset.sdiff_insert, Finset.card_erase_of_mem hnotmem]
          have hpos : 0 < (S \ f.places_seen).card :=
            Finset.card_pos.mpr ⟨_, hnotmem⟩
          omega
        have hexp := expand_list_length_le f { pl with idx := f.normals_seen.card }
        have hmeas3 : finder_measure S { f with
            queue := (f.expand_list { pl with idx := f.normals_seen.card }).reverse ++ rest,
            places_seen := insert (pl.shape.color, pl.tf) f.places_seen,
            normals_seen := insert
              (Place.normal { pl with idx := f.normals_seen.card }) f.normals_seen }
            + 2 ≤ k := by
          unfold finder_measure at hk ⊢
          rw [hq] at hk
          simp only [List.length_cons] at hk
          dsimp only
          simp only [List.length_append, List.length_reverse]
          omega
        have hinv3 : finder_inv S m { f with
            queue := (f.expand_list { pl with idx := f.normals_seen.card }).reverse ++ rest,
            places_seen := insert (pl.shape.color, pl.tf) f.places_seen,
            normals_seen := insert
              (Place.normal { pl with idx := f.normals_seen.card }) f.normals_seen } :=
          ⟨hinv.1, fun x hx => hnew x hx⟩
        exact ih _ (by omega) _ hinv3 rfl m1 m2 (by omega) (by omega)
      · -- yielded
        have hnotmem : (pl.shape.color, pl.tf) ∈ S \ f.places_seen :=
          Finset.mem_sdiff.mpr ⟨hkey, hc⟩
        have hcard : (S \ insert (pl.shape.color, pl.tf) f.places_seen).card + 1
            = (S \ f.places_seen).card := by
          rw [Finset.sdiff_insert, Finset.card_erase_of_mem hnotmem]
          have hpos : 0 < (S \ f.places_seen).card :=
            Finset.card_pos.mpr ⟨_, hnotmem⟩
          omega
        have hexp := expand_list_length_le f { pl with idx := f.normals_seen.card }
        have hmeas3 : finder_measure S { f with
            queue := (f.expand_list { pl with idx := f.normals_seen.card }).reverse ++ rest,
            places_seen := insert (pl.shape.color, pl.tf) f.places_seen,
            normals_seen := insert
              (Place.normal { pl with idx := f.normals_seen.card }) f.normals_seen }
            + 2 ≤ k := by
          unfold finder_measure at hk ⊢
          rw [hq] at hk
          simp only [List.length_cons] at hk
          dsimp only
          simp only [List.length_append, List.length_reverse]
          omega
        have hinv3 : finder_inv S m { f with
            queue := (f.expand_list { pl with idx := f.normals_seen.card }).reverse ++ rest,
            places_seen := insert (pl.shape.color, pl.tf) f.places_seen,
            normals_seen := insert
              (Place.normal { pl with idx := f.normals_seen.card }) f.normals_seen } :=
          ⟨hinv.1, fun x hx => hnew x hx⟩
        exact congrArg (List.cons _)
          (ih _ (by omega) _ hinv3 rfl m1 m2 (by omega) (by omega))

/-- Executable check that every shape the priming list can push has
nonempty cells in every orientation (true of every real piece shape). -/
def shapes_ok (tb : ShapeTable) (l : List (Color × Bool)) : Bool :=
  l.all fun p =>
    match tb p.1 with
    | none => true
    | some s => Orientation.iter_all.all fun r => !(s.cells r).isEmpty

lemma shapes_ok_spec (tb : ShapeTable) (l : List (Color × Bool))
    (h : shapes_ok tb l = true) (p : Color × Bool) (hp : p ∈ l) (s : Shape)
    (hs : tb p.1 = some s) : ∀ r, s.cells r ≠ [] := by
  unfold shapes_ok at h
  rw [List.all_eq_true] at h
  have h2 := h p hp
  simp only [hs] at h2
  rw [List.all_eq_true] at h2
  intro r
  have hr := h2 r (by cases r <;> simp [Orientation.iter_all])
  rw [Bool.not_eq_true'] at hr
  intro hnil
  rw [hnil] at hr
  exact absurd hr (by simp)

/-- A freshly primed finder satisfies the termination invariant for the
table box of its priming list. -/
lemma prime_finder_inv (tb : ShapeTable) (m : BasicMatrix) (l : List (Color × Bool))
    (h : shapes_ok tb l = true) :
    finder_inv (table_box tb m l) m (prime_finder tb m l) := by
  refine ⟨prime_finder_matrix tb m l, ?_⟩
  intro pl hmem
  rcases prime_finder_queue_mem tb m l pl hmem with ⟨p, hp, s, hs, r, j, hj, he⟩
  have hcells : ∀ r2, s.cells r2 ≠ [] := shapes_ok_spec tb l h p hp s hs
  rw [he]
  refine ⟨hcells, peak_place_valid m s j r hcells hj, ?_⟩
  intro tf' hv'
  apply subset_table_box tb m l s (List.mem_filterMap.mpr ⟨p, hp, hs⟩)
  exact Finset.mem_product.mpr
    ⟨Finset.mem_singleton_self _, valid_mem_box m s tf' (hcells _) hv'⟩

/-- C10: for any matrix and finite priming (over a table whose shapes have
nonempty cells), the finder's fuelled iteration stabilizes: there is a bound
past which more fuel yields no further placements, i.e. the iterator
terminates. -/
theorem finder_terminates (tb : ShapeTable) (m : BasicMatrix)
    (l : List (Color × Bool)) (h : shapes_ok tb l = true) :
    ∃ N, ∀ n, N ≤ n →
      run_finder n (prime_finder tb m l) = run_finder N (prime_finder tb m l) := by
  refine ⟨finder_measure (table_box tb m l) (prime_finder tb m l), ?_⟩
  intro n hn
  exact run_finder_stab (table_box tb m l) m _ _ (prime_finder_inv tb m l h) rfl
    n _ hn le_rfl

/-- A one-piece shape table for the termination witness. -/
def w_table : ShapeTable := fun c => if c = 'O' then some w_shape else none

theorem finder_terminates_witness :
    shapes_ok w_table [('O', false)] = true
    ∧ ∃ N, ∀ n, N ≤ n →
      run_finder n (prime_finder w_table (BasicMatrix.with_cols 1) [('O', false)])
        = run_finder N (prime_finder w_table (BasicMatrix.with_cols 1) [('O', false)]) :=
  ⟨by decide, finder_terminates w_table (BasicMatrix.with_cols 1) [('O', false)] (by decide)⟩

end Blockfish
